import Mathlib

/-!
Shallow embedding of the NeuralAmpModelerCore DSP core
(`src/dsp/NoiseGate.cpp`, `src/dsp/coredsp.cpp`,
`src/AudioDSPTools/dsp/ImpulseResponse.cpp`,
`src/AudioDSPTools/dsp/RecursiveLinearFilter.cpp` and their headers).

Conventions of the embedding:
- C++ `double`/`float` samples are idealized as exact rationals `ℚ`.
  The transcendental library primitives `pow` and `log10` have no exact
  rational counterpart, so they are passed in as explicit function
  parameters (`cpow : ℚ → ℚ → ℚ`, `log10 : ℚ → ℚ`); every definition
  applies them exactly where the C++ source calls `pow`/`log10`.
- Fallible code (a C++ `throw`) is an `Except String`/`Option String`
  result; an out-of-bounds `std::vector::operator[]` access (undefined
  behavior in C++) is modeled by `Option`-valued indexing, `none` meaning
  the program has no defined value.
- Stateful classes become structures, member functions become functions
  from the structure to an updated structure.
-/

namespace NamCore

/-- Translation of `std::clamp(v, lo, hi)` (cppreference semantics:
`v < lo ? lo : hi < v ? hi : v`). -/
def clampQ (v lo hi : ℚ) : ℚ :=
  if v < lo then lo else if hi < v then hi else v

/-- Translation of the free function `_DBToLevel` in `NoiseGate.cpp`:
`pow(10.0, level / 10.0)`.  The C library `pow` is the parameter `cpow`. -/
def dbToLevel (cpow : ℚ → ℚ → ℚ) (level : ℚ) : ℚ :=
  cpow 10 (level / 10)

/-- Translation of the free function `_LevelToDB` in `NoiseGate.cpp`:
`10.0 * log10(db)`. -/
def levelToDB (log10 : ℚ → ℚ) (x : ℚ) : ℚ :=
  10 * log10 x

namespace noise_gate

/-- The `dsp::noise_gate::Gain` class state: the gain-reduction matrix
stored by `SetGainReductionDB`.  (The inherited output storage is
overwritten on every call and is returned directly by the embedding of
`Process`, so it is not part of the state.) -/
structure Gain where
  mGainReductionDB : List (List ℚ)
  deriving DecidableEq, Repr

/-- Translation of `Gain::SetGainReductionDB` (`NoiseGate.h`): the C++
`std::vector` copy-assignment stores an independent copy of the argument,
which is exactly value semantics. -/
def Gain.SetGainReductionDB (_g : Gain) (gainReductionDB : List (List ℚ)) : Gain :=
  ⟨gainReductionDB⟩

/-- Inner loop of `Gain::Process` (`for s`): computes
`_DBToLevel(mGainReductionDB[c][s]) * inputs[c][s]` for
`s = start, start+1, ...` (`n` iterations).  `none` models an
out-of-bounds vector access. -/
def gainRowLoop (cpow : ℚ → ℚ → ℚ) (mrow irow : List ℚ) :
    (start : ℕ) → (n : ℕ) → Option (List ℚ)
  | _, 0 => some []
  | s, n + 1 => do
    let r ← mrow[s]?
    let x ← irow[s]?
    let rest ← gainRowLoop cpow mrow irow (s + 1) n
    pure (dbToLevel cpow r * x :: rest)

/-- Outer loop of `Gain::Process` (`for c`): one output row per channel
`c = start, start+1, ...` (`nChan` iterations of `numFrames` frames). -/
def gainChanLoop (cpow : ℚ → ℚ → ℚ) (gainReductionDB inputs : List (List ℚ)) :
    (start : ℕ) → (nChan : ℕ) → (numFrames : ℕ) → Option (List (List ℚ))
  | _, 0, _ => some []
  | c, nChan + 1, numFrames => do
    let mrow ← gainReductionDB[c]?
    let irow ← inputs[c]?
    let row ← gainRowLoop cpow mrow irow 0 numFrames
    let rest ← gainChanLoop cpow gainReductionDB inputs (c + 1) nChan numFrames
    pure (row :: rest)

/-- Translation of `Gain::Process` (`NoiseGate.cpp`, lines 150-184).
Result: `none` = an out-of-bounds access (undefined behavior),
`some (.error e)` = a thrown `std::runtime_error` (fatal fault),
`some (.ok outs)` = normal completion with output block `outs`. -/
def Gain.Process (cpow : ℚ → ℚ → ℚ) (g : Gain) (inputs : List (List ℚ))
    (numChannels numFrames : ℕ) : Option (Except String (List (List ℚ))) :=
  let M := g.mGainReductionDB
  if M.length ≠ numChannels then
    some (.error "Gain module channel count mismatch")
  else if M.length = 0 ∧ 0 < numFrames then
    some (.error "No channels expected by gain module")
  else
    M[0]?.bind fun row0 =>
      if row0.length ≠ numFrames then
        some (.error "Gain module frame count mismatch")
      else
        (gainChanLoop cpow M inputs 0 numChannels numFrames).map Except.ok

/-- A result of `Gain.Process` counts as a fatal fault exactly when it is a
thrown `std::runtime_error`. -/
def raisesFault (r : Option (Except String (List (List ℚ)))) : Bool :=
  match r with
  | some (.error _) => true
  | _ => false

/-- A result of `Gain.Process` counts as normal completion exactly when it
returns an output block. -/
def completesNormally (r : Option (Except String (List (List ℚ)))) : Bool :=
  match r with
  | some (.ok _) => true
  | _ => false

/-- The validation prefix of `Gain::Process` in isolation (the three checks
before the apply loop): `none` = the check itself performs an out-of-bounds
read, `some (some e)` = a thrown fault, `some none` = validation passes. -/
def Gain.Validate (g : Gain) (numChannels numFrames : ℕ) : Option (Option String) :=
  let M := g.mGainReductionDB
  if M.length ≠ numChannels then
    some (some "Gain module channel count mismatch")
  else if M.length = 0 ∧ 0 < numFrames then
    some (some "No channels expected by gain module")
  else
    M[0]?.bind fun row0 =>
      if row0.length ≠ numFrames then
        some (some "Gain module frame count mismatch")
      else
        some none

end noise_gate

/-! ## History extension (`coredsp.cpp`, class `dsp::History`) -/

/-- State of the `dsp::History` class: the single-channel ring of past
samples, the write cursor, and the required lookback. -/
structure History where
  mHistory : List ℚ
  mHistoryIndex : ℕ
  mHistoryRequired : ℕ
  deriving DecidableEq, Repr

/-- Translation of `History::_AdvanceHistoryIndex`. -/
def History.AdvanceHistoryIndex (st : History) (bufferSize : ℕ) : History :=
  { st with mHistoryIndex := st.mHistoryIndex + bufferSize }

/-- Translation of `History::_EnsureHistorySize`: grow the ring to
`10 * max(bufferSize, mHistoryRequired)` when it is smaller, zero-filling
the whole buffer (`std::fill` over the entire vector) and resetting the
cursor to `mHistoryRequired`. -/
def History.EnsureHistorySize (st : History) (bufferSize : ℕ) : History :=
  let repeatSize := max bufferSize st.mHistoryRequired
  let requiredHistoryArraySize := 10 * repeatSize
  if st.mHistory.length < requiredHistoryArraySize then
    ⟨List.replicate requiredHistoryArraySize 0, st.mHistoryRequired, st.mHistoryRequired⟩
  else
    st

/-- The sequential copy loop of `History::_RewindHistory`
(`for i = 0, j = idx - required; i < required; i++, j++: hist[i] = hist[j]`):
`n` remaining iterations, destination `i`, source `j`, each iteration
reading the current (partially overwritten) buffer, as the C++ loop does. -/
def rewindLoop (hist : List ℚ) : (j : ℕ) → (i : ℕ) → (n : ℕ) → List ℚ
  | _, _, 0 => hist
  | j, i, n + 1 => rewindLoop (hist.set i (hist.getD j 0)) (j + 1) (i + 1) n

/-- Translation of `History::_RewindHistory`: copy the trailing
`mHistoryRequired` samples to the start of the ring and reset the cursor
to `mHistoryRequired`. -/
def History.RewindHistory (st : History) : History :=
  ⟨rewindLoop st.mHistory (st.mHistoryIndex - st.mHistoryRequired) 0 st.mHistoryRequired,
    st.mHistoryRequired, st.mHistoryRequired⟩

/-- The write loop shared by `History::_UpdateHistory`
(`for i = 0, j = idx; i < numFrames; i++, j++: hist[j] = inputs[0][i]`):
write the samples `xs` into the buffer starting at index `j`.  A write
past the end of a `std::vector` is undefined behavior; here `List.set`
out of range leaves the list unchanged, and the theorems carry the
in-bounds hypotheses under which the two agree. -/
def writeLoop (hist : List ℚ) : (j : ℕ) → (xs : List ℚ) → List ℚ
  | _, [] => hist
  | j, x :: xs => writeLoop (hist.set j x) (j + 1) xs

/-- Translation of `History::_UpdateHistory`.  The returned `History` is
the state of the object when the call returns or throws (the C++ method
mutates `this` via `_EnsureHistorySize` before the channel check, so a
throw still leaves that mutation behind); the `Option String` is the
thrown `std::runtime_error`, if any. -/
def History.UpdateHistory (st : History) (inputs : List (List ℚ))
    (numChannels numFrames : ℕ) : History × Option String :=
  let st1 := st.EnsureHistorySize numFrames
  if numChannels < 1 then
    (st1, some "Zero channels?")
  else
    let st2 := if st1.mHistoryIndex + numFrames ≥ st1.mHistory.length then
      st1.RewindHistory else st1
    ({ st2 with
        mHistory := writeLoop st2.mHistory st2.mHistoryIndex
          ((List.range numFrames).map fun i => (inputs.getD 0 []).getD i 0) },
      none)

/-- Writing the current block into the ring at the cursor without moving
it: the effect `_UpdateHistory` has on an already-large-enough ring
(its write loop in isolation), used to compare the with-rewind and
without-rewind executions. -/
def History.WriteBlock (st : History) (xs : List ℚ) : History :=
  { st with mHistory := writeLoop st.mHistory st.mHistoryIndex xs }

/-- The Eigen dot product of two equal-length vectors
(`mWeight.dot(input)` in `ImpulseResponse::Process`). -/
def dotQ (a b : List ℚ) : ℚ :=
  ((a.zip b).map fun p => p.1 * p.2).sum

/-- The read loop of `ImpulseResponse::Process`: for each output frame
`i < numFrames`, the dot product of the weight vector with the history
window of length `mHistoryRequired + 1` starting at
`mHistoryIndex - mHistoryRequired + i`. -/
def irOutputs (w : List ℚ) (st : History) (numFrames : ℕ) : List ℚ :=
  (List.range numFrames).map fun i =>
    dotQ w ((List.range (st.mHistoryRequired + 1)).map fun k =>
      st.mHistory.getD (st.mHistoryIndex - st.mHistoryRequired + i + k) 0)

/-! ## Shared block-processor base (`dsp.cpp`, class `namdsp::DSP`) -/

/-- Translation of `std::vector<T>::resize(n)`: keep the first `n`
elements, pad with the value-initialized `fill`. -/
def listResize {α : Type} (xs : List α) (n : ℕ) (fill : α) : List α :=
  xs.take n ++ List.replicate (n - xs.length) fill

/-- `std::vector<std::vector<T>>::resize(n)`: new rows are empty. -/
def listResizeRows {α : Type} (xs : List (List α)) (n : ℕ) : List (List α) :=
  xs.take n ++ List.replicate (n - xs.length) []

/-- Modelled from the spec: the inline getter `DSP::_GetNumChannels` lives
in the missing header `dsp.h`; per the spec the block processor "owns and
lazily resizes its output storage", so the previous call's channel count
is the size of the owned output storage. -/
def GetNumChannels {α : Type} (outputs : List (List α)) : ℕ := outputs.length

/-- Modelled from the spec: the inline getter `DSP::_GetNumFrames` from
the missing header `dsp.h`; the previous call's frame count is the length
of an output channel (0 when there is none). -/
def GetNumFrames {α : Type} (outputs : List (List α)) : ℕ := (outputs.getD 0 []).length

/-- Translation of `DSP::_PrepareBuffers` (`dsp.cpp`): resize the output
storage when the requested shape differs from the previous call's.
`zero` is the value-initialized sample (`0.0`). -/
def DSPPrepareBuffers {α : Type} (zero : α) (outputs : List (List α))
    (numChannels numFrames : ℕ) : List (List α) :=
  let oldFrames := GetNumFrames outputs
  let oldChannels := GetNumChannels outputs
  let resizeChannels := oldChannels ≠ numChannels
  let resizeFrames := resizeChannels ∨ oldFrames ≠ numFrames
  let o1 := if resizeChannels then listResizeRows outputs numChannels else outputs
  if resizeFrames then o1.map fun row => listResize row numFrames zero else o1

/-! ## Noise-gate trigger (`NoiseGate.cpp`, class `dsp::noise_gate::Trigger`) -/

namespace noise_gate

/-- The constant `MINIMUM_LOUDNESS_DB` of `NoiseGate.h`. -/
def MINIMUM_LOUDNESS_DB : ℚ := -120

/-- The constant `MINIMUM_LOUDNESS_POWER = pow(10.0, MINIMUM_LOUDNESS_DB / 10.0)`
of `NoiseGate.h`, i.e. exactly `10^(-12)`. -/
def MINIMUM_LOUDNESS_POWER : ℚ := (10 : ℚ) ^ (-12 : ℤ)

/-- The `TriggerParams` configuration struct of `NoiseGate.h`. -/
structure TriggerParams where
  mTime : ℚ
  mThreshold : ℚ
  mRatio : ℚ
  mOpenTime : ℚ
  mHoldTime : ℚ
  mCloseTime : ℚ
  deriving DecidableEq, Repr

/-- The per-channel state machine enum `Trigger::State`. -/
inductive State where
  | MOVING
  | HOLDING
  deriving DecidableEq, Repr

/-- Translation of `Trigger::_GetGainReduction` (`NoiseGate.h`): the
quadratic expansion curve below threshold, `0` at or above it. -/
def GetGainReduction (p : TriggerParams) (levelDB : ℚ) : ℚ :=
  if levelDB < p.mThreshold then
    -p.mRatio * (levelDB - p.mThreshold) * (levelDB - p.mThreshold)
  else 0

/-- Translation of `Trigger::_GetMaxGainReduction` (`NoiseGate.h`). -/
def GetMaxGainReduction (p : TriggerParams) : ℚ :=
  GetGainReduction p MINIMUM_LOUDNESS_DB

/-- One channel's per-sample state: bundles the entries `mState[c]`,
`mLevel[c]`, `mLastGainReductionDB[c]` and `mTimeHeld[c]` of the source's
parallel per-channel vectors. -/
structure ChanState where
  mState : State
  mLevel : ℚ
  mLastGainReductionDB : ℚ
  mTimeHeld : ℚ
  deriving DecidableEq, Repr

instance : Inhabited ChanState :=
  ⟨⟨State.MOVING, 0, 0, 0⟩⟩

/-- The body of the per-sample loop of `Trigger::Process`
(`NoiseGate.cpp`, lines 56-98) for one channel: updates the loudness
estimate, runs the HOLDING/MOVING state machine, and returns the updated
channel state together with the gain-reduction value written to
`mGainReductionDB[c][s]`.  `alpha` and `dt` are the per-block constants
computed at the top of `Process`. -/
def processSample (log10 : ℚ → ℚ) (p : TriggerParams) (alpha dt : ℚ)
    (cs : ChanState) (x : ℚ) : ChanState × ℚ :=
  let beta := 1 - alpha
  let threshold := p.mThreshold
  let maxHold := p.mHoldTime
  let maxGainReduction := GetMaxGainReduction p
  let dOpen := -(GetMaxGainReduction p) / p.mOpenTime * dt
  let dClose := GetMaxGainReduction p / p.mCloseTime * dt
  let level := clampQ (alpha * cs.mLevel + beta * (x * x)) MINIMUM_LOUDNESS_POWER 1000
  let levelDB := levelToDB log10 level
  match cs.mState with
  | State.HOLDING =>
    if levelDB < threshold then
      let timeHeld := cs.mTimeHeld + dt
      if timeHeld ≥ maxHold then
        (⟨State.MOVING, level, 0, timeHeld⟩, 0)
      else
        (⟨State.HOLDING, level, 0, timeHeld⟩, 0)
    else
      (⟨State.HOLDING, level, 0, 0⟩, 0)
  | State.MOVING =>
    let targetGainReduction := GetGainReduction p levelDB
    if targetGainReduction > cs.mLastGainReductionDB then
      let dGain := clampQ ((0.5 : ℚ) * (targetGainReduction - cs.mLastGainReductionDB)) 0 dOpen
      let g1 := cs.mLastGainReductionDB + dGain
      if g1 ≥ 0 then
        (⟨State.HOLDING, level, 0, 0⟩, 0)
      else
        (⟨State.MOVING, level, g1, cs.mTimeHeld⟩, g1)
    else if targetGainReduction < cs.mLastGainReductionDB then
      let dGain := clampQ ((0.5 : ℚ) * (targetGainReduction - cs.mLastGainReductionDB)) dClose 0
      let g1 := cs.mLastGainReductionDB + dGain
      let g2 := if g1 < maxGainReduction then maxGainReduction else g1
      (⟨State.MOVING, level, g2, cs.mTimeHeld⟩, g2)
    else
      (⟨State.MOVING, level, cs.mLastGainReductionDB, cs.mTimeHeld⟩, cs.mLastGainReductionDB)

/-- The per-channel frame loop of `Trigger::Process`: folds
`processSample` over the channel's input samples, collecting the row of
gain-reduction values written for this block. -/
def processChannel (log10 : ℚ → ℚ) (p : TriggerParams) (alpha dt : ℚ) :
    ChanState → List ℚ → ChanState × List ℚ
  | cs, [] => (cs, [])
  | cs, x :: xs =>
    let r1 := processSample log10 p alpha dt cs x
    let r2 := processChannel log10 p alpha dt r1.1 xs
    (r2.1, r1.2 :: r2.2)

/-- The `dsp::noise_gate::Trigger` class state.  The four parallel
per-channel vectors are bundled into `mChannels`; the subscribed gain
listeners are passed explicitly to `ProcessPublish` instead of being
stored as raw pointers. -/
structure Trigger where
  mParams : TriggerParams
  mSampleRate : ℚ
  mChannels : List ChanState
  mGainReductionDB : List (List ℚ)
  mOutputs : List (List ℚ)
  deriving DecidableEq, Repr

/-- Translation of the `Trigger::Trigger()` constructor: default params
`(0.05, -60.0, 1.5, 0.002, 0.050, 0.050)`, sample rate 0, empty state. -/
def Trigger.ctor : Trigger :=
  ⟨⟨1/20, -60, 3/2, 1/500, 1/20, 1/20⟩, 0, [], [], []⟩

/-- Translation of `Trigger::_PrepareBuffers` (`NoiseGate.cpp`, lines
112-146): on a channel-count change all per-channel state is resized and
refilled (max gain reduction, MOVING, minimum loudness, zero held time);
on any shape change the gain-reduction rows are resized and refilled with
the maximum gain reduction. -/
def Trigger.PrepareBuffers (t : Trigger) (numChannels numFrames : ℕ) : Trigger :=
  let oldChannels := GetNumChannels t.mOutputs
  let oldFrames := GetNumFrames t.mOutputs
  let outputs := DSPPrepareBuffers (0 : ℚ) t.mOutputs numChannels numFrames
  let updateChannels := numChannels ≠ oldChannels
  let updateFrames := updateChannels ∨ numFrames ≠ oldFrames
  let maxGainReduction := GetMaxGainReduction t.mParams
  let channels :=
    if updateChannels then
      List.replicate numChannels
        ⟨State.MOVING, MINIMUM_LOUDNESS_POWER, maxGainReduction, 0⟩
    else t.mChannels
  let matrix1 :=
    if updateChannels then listResizeRows t.mGainReductionDB numChannels
    else t.mGainReductionDB
  let matrix2 :=
    if updateFrames then matrix1.map fun _ => List.replicate numFrames maxGainReduction
    else matrix1
  { t with mOutputs := outputs, mChannels := channels, mGainReductionDB := matrix2 }

/-- Translation of `Trigger::Process` (`NoiseGate.cpp`, lines 35-110),
without the publish step (split into `ProcessPublish` below): prepares
buffers, computes the per-block smoothing constants
(`alpha = pow(0.5, 1/(time*rate))`, `dt = 1/rate`), runs the per-channel
state machine over all frames filling the gain-reduction matrix, and
copies the input block to the output storage (`memcpy` pass-through). -/
def Trigger.Process (log10 : ℚ → ℚ) (cpow : ℚ → ℚ → ℚ) (t : Trigger)
    (inputs : List (List ℚ)) (numChannels numFrames : ℕ) : Trigger :=
  let t1 := t.PrepareBuffers numChannels numFrames
  let alpha := cpow (0.5 : ℚ) (1 / (t.mParams.mTime * t.mSampleRate))
  let dt := 1 / t.mSampleRate
  let results := (List.range numChannels).map fun c =>
    processChannel log10 t.mParams alpha dt
      (t1.mChannels.getD c default) ((inputs.getD c []).take numFrames)
  { t1 with
    mChannels := results.map Prod.fst,
    mGainReductionDB := results.map Prod.snd,
    mOutputs := (List.range numChannels).map fun c => (inputs.getD c []).take numFrames }

/-- The publish step at the end of `Trigger::Process` (`NoiseGate.cpp`,
lines 102-104): every subscribed `Gain` receives the trigger's current
gain-reduction matrix through `SetGainReductionDB` (a `std::vector`
copy-assignment, i.e. an independent copy). -/
def Trigger.ProcessPublish (log10 : ℚ → ℚ) (cpow : ℚ → ℚ → ℚ) (t : Trigger)
    (gainListeners : List Gain) (inputs : List (List ℚ))
    (numChannels numFrames : ℕ) : Trigger × List Gain :=
  let t1 := t.Process log10 cpow inputs numChannels numFrames
  (t1, gainListeners.map fun g => g.SetGainReductionDB t1.mGainReductionDB)

end noise_gate

/-! ## Recursive linear filter (`RecursiveLinearFilter.cpp`, class
`recursive_linear_filter::Base`)

The NaN guard is the point of interest here, so the sample domain is
`FD := Option ℚ`: `none` models an IEEE NaN, and arithmetic propagates it
the way NaN propagates through `+` and `*`. -/

/-- A floating-point sample: `none` is NaN, `some q` a numeric value. -/
abbrev FD := Option ℚ

/-- Addition with NaN propagation. -/
def fdAdd : FD → FD → FD
  | some a, some b => some (a + b)
  | _, _ => none

/-- Multiplication with NaN propagation. -/
def fdMul : FD → FD → FD
  | some a, some b => some (a * b)
  | _, _ => none

/-- Translation of `std::isnan`. -/
def fdIsNaN (x : FD) : Bool := x.isNone

namespace recursive_linear_filter

/-- The cursor decrement with wraparound of `Base::Process`
(`start -= 1; if (start < 0) start = degree - 1`), on ℕ. -/
def natDecWrap (start deg : ℕ) : ℕ :=
  if start = 0 then deg - 1 else start - 1

/-- The state of `recursive_linear_filter::Base`: coefficient vectors,
per-channel circular input/output histories, the two cursors, and the
owned output storage of the `namdsp::DSP` base. -/
structure Base where
  mInputCoefficients : List FD
  mOutputCoefficients : List FD
  mInputHistory : List (List FD)
  mOutputHistory : List (List FD)
  mInputStart : ℕ
  mOutputStart : ℕ
  mOutputs : List (List FD)
  deriving DecidableEq, Repr

/-- Translation of the `Base(inputDegree, outputDegree)` constructor:
coefficient vectors resized (value-initialized to 0), cursors start at
the degrees ("1 is subtracted before first use"). -/
def Base.ctor (inputDegree outputDegree : ℕ) : Base :=
  ⟨List.replicate inputDegree (some 0), List.replicate outputDegree (some 0),
    [], [], inputDegree, outputDegree, []⟩

/-- The accumulation of one output sample in `Base::Process` (lines
46-60): the input terms `Σ_{i<inDeg} inputCoeff[i]*inputHistory[(iS+i) % inDeg]`
plus the output terms for `i = 1, ..., outDeg-1` (index 0 is never
used). -/
def filterAccum (inCoef outCoef inHist outHist : List FD)
    (iS oS inDeg outDeg : ℕ) : FD :=
  let inSum := (List.range inDeg).foldl
    (fun acc i => fdAdd acc (fdMul (inCoef.getD i none)
      (inHist.getD ((iS + i) % inDeg) none))) (some 0)
  (List.range' 1 (outDeg - 1)).foldl
    (fun acc i => fdAdd acc (fdMul (outCoef.getD i none)
      (outHist.getD ((oS + i) % outDeg) none))) inSum

/-- One sample of `Base::Process` for one channel (lines 46-67):
decrement/wrap both cursors, store the input, accumulate, replace a NaN
accumulation by 0, store the guarded output into the output history
(when `outputDegree ≥ 1`) and emit it. -/
def filterStep (inCoef outCoef : List FD) (inDeg outDeg : ℕ)
    (inHist outHist : List FD) (iS oS : ℕ) (x : FD) :
    List FD × List FD × ℕ × ℕ × FD :=
  let iS2 := natDecWrap iS inDeg
  let inHist2 := inHist.set iS2 x
  let oS2 := natDecWrap oS outDeg
  let acc := filterAccum inCoef outCoef inHist2 outHist iS2 oS2 inDeg outDeg
  let out := if fdIsNaN acc then some 0 else acc
  let outHist2 := if 1 ≤ outDeg then outHist.set oS2 out else outHist
  (inHist2, outHist2, iS2, oS2, out)

/-- The frame loop of `Base::Process` for one channel: returns the final
histories and cursors and the list of output samples. -/
def filterChan (inCoef outCoef : List FD) (inDeg outDeg : ℕ) :
    List FD → List FD → ℕ → ℕ → List FD →
    List FD × List FD × ℕ × ℕ × List FD
  | ih, oh, iS, oS, [] => (ih, oh, iS, oS, [])
  | ih, oh, iS, oS, x :: xs =>
    let r := filterStep inCoef outCoef inDeg outDeg ih oh iS oS x
    let rest := filterChan inCoef outCoef inDeg outDeg
      r.1 r.2.1 r.2.2.1 r.2.2.2.1 xs
    (rest.1, rest.2.1, rest.2.2.1, rest.2.2.2.1, r.2.2.2.2 :: rest.2.2.2.2)

/-- Translation of `Base::_PrepareBuffers` (lines 75-96): on a
channel-count change the per-channel histories are resized and
zero-filled. -/
def Base.PrepareBuffers (b : Base) (numChannels numFrames : ℕ) : Base :=
  let newChannels := GetNumChannels b.mOutputs ≠ numChannels
  let outputs := DSPPrepareBuffers (some 0 : FD) b.mOutputs numChannels numFrames
  if newChannels then
    { b with
      mOutputs := outputs
      mInputHistory := List.replicate numChannels
        (List.replicate b.mInputCoefficients.length (some 0))
      mOutputHistory := List.replicate numChannels
        (List.replicate b.mOutputCoefficients.length (some 0)) }
  else
    { b with mOutputs := outputs }

/-- Translation of `Base::Process` (lines 26-73): per channel, both
cursors restart from the members and the frame loop runs; the members
receive the cursors left by the last channel (or 0, the local variables'
initial values, when there are no channels). -/
def Base.Process (b : Base) (inputs : List (List FD))
    (numChannels numFrames : ℕ) : Base × List (List FD) :=
  let b1 := b.PrepareBuffers numChannels numFrames
  let inDeg := b1.mInputCoefficients.length
  let outDeg := b1.mOutputCoefficients.length
  let results := (List.range numChannels).map fun c =>
    filterChan b1.mInputCoefficients b1.mOutputCoefficients inDeg outDeg
      (b1.mInputHistory.getD c []) (b1.mOutputHistory.getD c [])
      b1.mInputStart b1.mOutputStart ((inputs.getD c []).take numFrames)
  let finalIn := match results.getLast? with
    | none => 0
    | some r => r.2.2.1
  let finalOut := match results.getLast? with
    | none => 0
    | some r => r.2.2.2.1
  let outs := results.map fun r => r.2.2.2.2
  ({ b1 with
      mInputHistory := results.map fun r => r.1,
      mOutputHistory := results.map fun r => r.2.1,
      mInputStart := finalIn,
      mOutputStart := finalOut,
      mOutputs := outs }, outs)

end recursive_linear_filter

/-! ## Impulse response engine (`ImpulseResponse.cpp`, class
`namdsp::ImpulseResponse`) -/

/-- The member constant `ImpulseResponse::mMaxLength = 8192`. -/
def mMaxLength : ℕ := 8192

/-- The gain-compensation factor of `ImpulseResponse::_SetWeights`
(line 84): `pow(10, -18 * 0.05) * 48000 / mSampleRate`. -/
def irGain (cpow : ℚ → ℚ → ℚ) (sampleRate : ℚ) : ℚ :=
  cpow 10 (-18 * (0.05 : ℚ)) * 48000 / sampleRate

/-- Translation of the weight construction of
`ImpulseResponse::_SetWeights` (lines 79-87), given the already resampled
signal: truncate to `mMaxLength`, time-reverse
(`for i = 0, j = irLength-1; i < irLength; i++, j--:
weight[j] = gain * resampled[i]`), scale by the gain factor, and return
the weights together with the new `mHistoryRequired = irLength - 1`. -/
def SetWeights (cpow : ℚ → ℚ → ℚ) (resampled : List ℚ) (sampleRate : ℚ) :
    List ℚ × ℕ :=
  let irLength := min resampled.length mMaxLength
  let gain := irGain cpow sampleRate
  ((List.range irLength).map fun j => gain * resampled.getD (irLength - 1 - j) 0,
    irLength - 1)

/-- The `namdsp::ImpulseResponse` state relevant to `Process`: the
inherited `History` and the weight vector. -/
structure ImpulseResponse extends History where
  mWeight : List ℚ
  deriving DecidableEq, Repr

/-- Translation of `ImpulseResponse::Process` (lines 40-58): update the
history with the incoming block, compute each output frame as the dot
product of the weights with the advancing history window, replicate
channel 0 to all channels, and advance the cursor.  A thrown
`std::runtime_error` from `_UpdateHistory` is propagated together with
the state at the throw point. -/
def ImpulseResponse.Process (ir : ImpulseResponse) (inputs : List (List ℚ))
    (numChannels numFrames : ℕ) :
    ImpulseResponse × Option String × List (List ℚ) :=
  let r := ir.toHistory.UpdateHistory inputs numChannels numFrames
  match r.2 with
  | some e => ({ ir with toHistory := r.1 }, some e, [])
  | none =>
    let out0 := irOutputs ir.mWeight r.1 numFrames
    let outs := List.replicate numChannels out0
    ({ ir with toHistory := r.1.AdvanceHistoryIndex numFrames }, none, outs)

/-! ## Theorems -/

namespace noise_gate

/-- Element lookup in a mapped `range'` list. -/
theorem getD_map_range' (f : ℕ → ℚ) (s n i : ℕ) (h : i < n) :
    ((List.range' s n).map f).getD i 0 = f (s + i) := by
  rw [List.getD_eq_getElem _ _ (by simpa using h), List.getElem_map,
    List.getElem_range'_1 i (by simpa using h)]

/-- Element lookup in a mapped `range'` list of rows. -/
theorem getD_map_range'_row (f : ℕ → List ℚ) (s n i : ℕ) (h : i < n) :
    ((List.range' s n).map f).getD i [] = f (s + i) := by
  rw [List.getD_eq_getElem _ _ (by simpa using h), List.getElem_map,
    List.getElem_range'_1 i (by simpa using h)]

/-- When all accessed indices are in bounds, the inner loop of
`Gain::Process` succeeds and computes the per-sample product. -/
theorem gainRowLoop_eq (cpow : ℚ → ℚ → ℚ) (mrow irow : List ℚ) :
    ∀ (n s : ℕ), s + n ≤ mrow.length → s + n ≤ irow.length →
    gainRowLoop cpow mrow irow s n =
      some ((List.range' s n).map fun k => dbToLevel cpow (mrow.getD k 0) * irow.getD k 0) := by
  intro n
  induction n with
  | zero => intro s _ _; simp [gainRowLoop]
  | succ n ih =>
    intro s hm hi
    have hms : s < mrow.length := by omega
    have his : s < irow.length := by omega
    rw [gainRowLoop, List.getElem?_eq_getElem hms, List.getElem?_eq_getElem his,
      ih (s + 1) (by omega) (by omega)]
    simp [List.range'_succ s n 1, List.getD_eq_getElem?_getD,
      List.getElem?_eq_getElem hms, List.getElem?_eq_getElem his]

/-- When all accessed rows are in bounds and long enough, the outer loop of
`Gain::Process` succeeds and computes the full output block. -/
theorem gainChanLoop_eq (cpow : ℚ → ℚ → ℚ) (M inputs : List (List ℚ)) (nF : ℕ)
    (hMr : ∀ r ∈ M, nF ≤ r.length) (hIr : ∀ r ∈ inputs, nF ≤ r.length) :
    ∀ (nChan c : ℕ), c + nChan ≤ M.length → c + nChan ≤ inputs.length →
    gainChanLoop cpow M inputs c nChan nF =
      some ((List.range' c nChan).map fun ch =>
        (List.range' 0 nF).map fun k =>
          dbToLevel cpow ((M.getD ch []).getD k 0) * ((inputs.getD ch []).getD k 0)) := by
  intro nChan
  induction nChan with
  | zero => intro c _ _; simp [gainChanLoop]
  | succ n ih =>
    intro c hm hi
    have hmc : c < M.length := by omega
    have hic : c < inputs.length := by omega
    rw [gainChanLoop, List.getElem?_eq_getElem hmc, List.getElem?_eq_getElem hic]
    simp only [Option.bind_eq_bind, Option.some_bind,
      gainRowLoop_eq cpow M[c] inputs[c] nF 0
        (by simpa using hMr _ (List.getElem_mem hmc))
        (by simpa using hIr _ (List.getElem_mem hic)),
      ih (c + 1) (by omega) (by omega)]
    simp [List.range'_succ c n 1, List.getD_eq_getElem?_getD,
      List.getElem?_eq_getElem hmc, List.getElem?_eq_getElem hic]

/-- C1: for every call to `Gain::Process` whose validation passes (the
stored gain-reduction matrix has `numChannels` channels of `numFrames`
frames each, and there is at least one channel so that the validation
path is defined), the call completes normally and every output sample is
`output[c][s] = _DBToLevel(reductionDB[c][s]) * input[c][s]`, i.e.
`10^(reductionDB[c][s]/10) × input[c][s]`. -/
theorem gain_process_applies_db_gain (cpow : ℚ → ℚ → ℚ) (g : Gain)
    (inputs : List (List ℚ)) (numChannels numFrames : ℕ)
    (hchan : g.mGainReductionDB.length = numChannels)
    (hframes : ∀ r ∈ g.mGainReductionDB, r.length = numFrames)
    (hichan : inputs.length = numChannels)
    (hiframes : ∀ r ∈ inputs, r.length = numFrames)
    (hpos : 0 < numChannels) :
    ∃ outs, Gain.Process cpow g inputs numChannels numFrames = some (.ok outs) ∧
      outs.length = numChannels ∧
      (∀ c < numChannels, (outs.getD c []).length = numFrames) ∧
      ∀ c < numChannels, ∀ s < numFrames,
        (outs.getD c []).getD s 0 =
          dbToLevel cpow ((g.mGainReductionDB.getD c []).getD s 0) *
            ((inputs.getD c []).getD s 0) := by
  have hM0 : 0 < g.mGainReductionDB.length := by omega
  have hrow0 : g.mGainReductionDB[0].length = numFrames :=
    hframes _ (List.getElem_mem hM0)
  refine ⟨(List.range' 0 numChannels).map fun ch =>
    (List.range' 0 numFrames).map fun k =>
      dbToLevel cpow ((g.mGainReductionDB.getD ch []).getD k 0) *
        ((inputs.getD ch []).getD k 0), ?_, ?_, ?_, ?_⟩
  · simp only [Gain.Process]
    rw [if_neg (not_not_intro hchan), if_neg (by omega),
      List.getElem?_eq_getElem hM0]
    simp only [Option.some_bind]
    rw [if_neg (not_not_intro hrow0),
      gainChanLoop_eq cpow g.mGainReductionDB inputs numFrames
        (fun r hr => le_of_eq (hframes r hr).symm)
        (fun r hr => le_of_eq (hiframes r hr).symm)
        numChannels 0 (by omega) (by omega)]
    rfl
  · simp
  · intro c hc
    rw [getD_map_range'_row _ 0 numChannels c hc]
    simp
  · intro c hc s hs
    rw [getD_map_range'_row _ 0 numChannels c hc]
    rw [getD_map_range' _ 0 numFrames s hs]
    simp

/-- C4 (counterexample): a stored matrix whose channel 0 has the right
frame count but whose channel 1 does not raises no fault and completes
normally, even though a per-channel frame-count mismatch exists; so the
fault condition is not equivalent to "any channel's frame count differs
from numFrames". -/
theorem gain_process_frame_check_only_channel0 :
    raisesFault (Gain.Process (fun _ _ => 1) ⟨[[0], [0, 0]]⟩ [[1], [1]] 2 1) = false ∧
    completesNormally (Gain.Process (fun _ _ => 1) ⟨[[0], [0, 0]]⟩ [[1], [1]] 2 1) = true ∧
    ¬ (∀ r ∈ (Gain.mk [[0], [0, 0]]).mGainReductionDB, r.length = 1) := by
  refine ⟨by decide, by decide, ?_⟩
  intro h
  have := h [0, 0] (by simp)
  simp at this

/-- C4 (amended): `Gain::Process` raises a fatal fault iff the stored
matrix's channel count differs from `numChannels`, or the matrix is empty
while `numFrames > 0`, or the matrix is non-empty and its channel 0's
frame count differs from `numFrames`; when the channel count matches, the
matrix is non-empty, channel 0 has exactly `numFrames` frames, and every
stored channel and every input channel holds at least `numFrames`
samples, the call completes normally. -/
theorem gain_process_fault_characterization (cpow : ℚ → ℚ → ℚ) (g : Gain)
    (inputs : List (List ℚ)) (numChannels numFrames : ℕ) :
    (raisesFault (Gain.Process cpow g inputs numChannels numFrames) = true ↔
      (g.mGainReductionDB.length ≠ numChannels ∨
        (g.mGainReductionDB = [] ∧ 0 < numFrames) ∨
        (g.mGainReductionDB ≠ [] ∧ (g.mGainReductionDB.getD 0 []).length ≠ numFrames))) ∧
    (g.mGainReductionDB.length = numChannels → g.mGainReductionDB ≠ [] →
      (g.mGainReductionDB.getD 0 []).length = numFrames →
      (∀ r ∈ g.mGainReductionDB, numFrames ≤ r.length) →
      numChannels ≤ inputs.length →
      (∀ r ∈ inputs, numFrames ≤ r.length) →
      completesNormally (Gain.Process cpow g inputs numChannels numFrames) = true) := by
  constructor
  · simp only [Gain.Process]
    by_cases h1 : g.mGainReductionDB.length = numChannels
    · by_cases hE : g.mGainReductionDB = []
      · by_cases h2 : 0 < numFrames
        · rw [if_neg (not_not_intro h1), if_pos ⟨by simp [hE], h2⟩]
          simp [raisesFault, h1, hE, h2]
        · have h1f : numChannels = 0 := by
            rw [hE] at h1
            simpa using h1.symm
          rw [if_neg (not_not_intro h1), if_neg (by omega), hE]
          simp [raisesFault, h1f, h2]
      · have hM0 : 0 < g.mGainReductionDB.length := List.length_pos.mpr hE
        by_cases h3 : g.mGainReductionDB[0].length = numFrames
        · rw [if_neg (not_not_intro h1), if_neg (by omega),
            List.getElem?_eq_getElem hM0]
          simp only [Option.some_bind]
          rw [if_neg (not_not_intro h3)]
          constructor
          · intro hf
            exfalso
            rcases ho : gainChanLoop cpow g.mGainReductionDB inputs 0 numChannels numFrames with
              _ | v <;> simp [raisesFault, ho] at hf
          · intro hcases
            rcases hcases with hA | ⟨hB, _⟩ | ⟨_, hC⟩
            · exact absurd h1 hA
            · exact absurd hB hE
            · rw [List.getD_eq_getElem g.mGainReductionDB [] hM0] at hC
              exact absurd h3 hC
        · rw [if_neg (not_not_intro h1), if_neg (by omega),
            List.getElem?_eq_getElem hM0]
          simp only [Option.some_bind]
          rw [if_pos h3]
          refine (iff_of_true rfl (Or.inr (Or.inr ⟨hE, ?_⟩)))
          rw [List.getD_eq_getElem g.mGainReductionDB [] hM0]
          exact h3
    · rw [if_pos h1]
      simp [raisesFault, h1]
  · intro h1 h2 h3 h4 h5 h6
    have hM0 : 0 < g.mGainReductionDB.length := List.length_pos.mpr h2
    have hrow0 : g.mGainReductionDB[0].length = numFrames := by
      rw [← List.getD_eq_getElem g.mGainReductionDB [] hM0]
      exact h3
    simp only [Gain.Process]
    rw [if_neg (not_not_intro h1), if_neg (by omega),
      List.getElem?_eq_getElem hM0]
    simp only [Option.some_bind]
    rw [if_neg (not_not_intro hrow0),
      gainChanLoop_eq cpow g.mGainReductionDB inputs numFrames h4 h6 numChannels 0
        (by omega) (by omega)]
    simp [completesNormally]

/-- C10: with an empty stored matrix and `numChannels = numFrames = 0`
the channel-count check passes, the second check passes (no frames), and
the frame-count check reads element 0 of the empty matrix: with
`Option`-valued indexing the call (and its validation prefix) has no
value; and whenever the stored matrix is non-empty, the validation prefix
is total (always produces a defined outcome). -/
theorem gain_validation_empty_matrix_out_of_bounds (cpow : ℚ → ℚ → ℚ)
    (inputs : List (List ℚ)) :
    Gain.Process cpow ⟨[]⟩ inputs 0 0 = none ∧
    Gain.Validate ⟨[]⟩ 0 0 = none ∧
    ∀ (g : Gain) (nC nF : ℕ), g.mGainReductionDB ≠ [] →
      (Gain.Validate g nC nF).isSome = true := by
  refine ⟨by simp [Gain.Process], by simp [Gain.Validate], ?_⟩
  intro g nC nF hne
  have h0 : 0 < g.mGainReductionDB.length := List.length_pos.mpr hne
  simp only [Gain.Validate]
  by_cases h1 : g.mGainReductionDB.length = nC
  · rw [if_neg (not_not_intro h1), if_neg (by omega), List.getElem?_eq_getElem h0]
    simp only [Option.some_bind]
    by_cases h3 : g.mGainReductionDB[0].length = nF <;> simp [h3]
  · rw [if_pos h1]
    simp

/-- Witness for C1 at a concrete input: one channel, one frame. -/
theorem gain_process_applies_db_gain_witness :
    ∃ outs, Gain.Process (fun _ _ => 1) ⟨[[0]]⟩ [[2]] 1 1 = some (.ok outs) ∧
      outs.length = 1 ∧ (∀ c < 1, (outs.getD c []).length = 1) ∧
      ∀ c < 1, ∀ s < 1,
        (outs.getD c []).getD s 0 =
          dbToLevel (fun _ _ => 1)
              (((Gain.mk [[0]]).mGainReductionDB.getD c []).getD s 0) *
            ((([[2]] : List (List ℚ)).getD c []).getD s 0) :=
  gain_process_applies_db_gain (fun _ _ => 1) ⟨[[0]]⟩ [[2]] 1 1
    (by decide) (by decide) (by decide) (by decide) (by decide)

/-- Witness for the amended C4 at a concrete input: matching shapes
complete normally. -/
theorem gain_process_fault_characterization_witness :
    completesNormally (Gain.Process (fun _ _ => 1) ⟨[[0]]⟩ [[2]] 1 1) = true :=
  (gain_process_fault_characterization (fun _ _ => 1) ⟨[[0]]⟩ [[2]] 1 1).2
    (by decide) (by decide) (by decide) (by decide) (by decide) (by decide)

/-- Witness for C10 at a concrete input: a non-empty stored matrix makes
the validation prefix total. -/
theorem gain_validation_empty_matrix_out_of_bounds_witness :
    (Gain.Validate ⟨[[0]]⟩ 3 7).isSome = true :=
  (gain_validation_empty_matrix_out_of_bounds (fun _ _ => 1) []).2.2 ⟨[[0]]⟩ 3 7
    (by decide)

end noise_gate

theorem writeLoop_length (xs : List ℚ) : ∀ (hist : List ℚ) (j : ℕ),
    (writeLoop hist j xs).length = hist.length := by
  induction xs with
  | nil => intro hist j; rfl
  | cons x xs ih =>
    intro hist j
    rw [writeLoop, ih, List.length_set]

theorem writeLoop_getD_lt (xs : List ℚ) : ∀ (hist : List ℚ) (j p : ℕ) (d : ℚ), p < j →
    (writeLoop hist j xs).getD p d = hist.getD p d := by
  induction xs with
  | nil => intro hist j p d _; rfl
  | cons x xs ih =>
    intro hist j p d hp
    rw [writeLoop, ih _ _ _ _ (by omega), List.getD_eq_getElem?_getD,
      List.getElem?_set_ne (by omega), ← List.getD_eq_getElem?_getD]

theorem writeLoop_getD_in (xs : List ℚ) : ∀ (hist : List ℚ) (j m : ℕ) (d : ℚ),
    m < xs.length → j + m < hist.length →
    (writeLoop hist j xs).getD (j + m) d = xs.getD m d := by
  induction xs with
  | nil => intro hist j m d hm _; simp at hm
  | cons x xs ih =>
    intro hist j m d hm hb
    match m with
    | 0 =>
      have hj : j < hist.length := by omega
      rw [writeLoop]
      simp only [Nat.add_zero]
      rw [writeLoop_getD_lt xs _ _ _ _ (by omega), List.getD_eq_getElem?_getD,
        List.getElem?_set_eq_of_lt _ hj]
      rfl
    | m + 1 =>
      have he : j + (m + 1) = (j + 1) + m := by omega
      have hb' : (j + 1) + m < (hist.set j x).length := by
        rw [List.length_set]; omega
      rw [writeLoop, he, ih _ _ _ _ (by simpa using hm) hb']
      rfl

theorem rewindLoop_length : ∀ (n : ℕ) (hist : List ℚ) (j i : ℕ),
    (rewindLoop hist j i n).length = hist.length := by
  intro n
  induction n with
  | zero => intro hist j i; rfl
  | succ n ih =>
    intro hist j i
    rw [rewindLoop, ih, List.length_set]

theorem rewindLoop_getD_lt : ∀ (n : ℕ) (hist : List ℚ) (j i p : ℕ) (d : ℚ), p < i →
    (rewindLoop hist j i n).getD p d = hist.getD p d := by
  intro n
  induction n with
  | zero => intro hist j i p d _; rfl
  | succ n ih =>
    intro hist j i p d hp
    rw [rewindLoop, ih _ _ _ _ _ (by omega), List.getD_eq_getElem?_getD,
      List.getElem?_set_ne (by omega), ← List.getD_eq_getElem?_getD]

/-- The forward in-place copy of `_RewindHistory` is safe because the
source cursor never trails the destination cursor (`i ≤ j`): the value
written at `i + k` is the original value at `j + k`. -/
theorem rewindLoop_getD_in : ∀ (n : ℕ) (hist : List ℚ) (j i : ℕ), i ≤ j →
    j + n ≤ hist.length → ∀ k < n,
    (rewindLoop hist j i n).getD (i + k) 0 = hist.getD (j + k) 0 := by
  intro n
  induction n with
  | zero => intro hist j i _ _ k hk; omega
  | succ n ih =>
    intro hist j i hij hb k hk
    match k with
    | 0 =>
      have hi : i < hist.length := by omega
      rw [rewindLoop]
      simp only [Nat.add_zero]
      rw [rewindLoop_getD_lt n _ _ _ _ _ (by omega), List.getD_eq_getElem?_getD,
        List.getElem?_set_eq_of_lt _ hi]
      rfl
    | k + 1 =>
      have h1 : i + (k + 1) = (i + 1) + k := by omega
      have h2 : j + (k + 1) = (j + 1) + k := by omega
      rw [rewindLoop, h1, h2,
        ih _ _ _ (by omega) (by rw [List.length_set]; omega) k (by omega),
        List.getD_eq_getElem?_getD, List.getElem?_set_ne (by omega),
        ← List.getD_eq_getElem?_getD]

/-- C3: compaction does not change what the convolution reads.  After
`_RewindHistory` the `historyRequired` most recent samples occupy
positions `0..historyRequired-1` of the ring in order and the cursor
equals `historyRequired`; consequently, writing the next block and
reading the dot-product windows of `ImpulseResponse::Process` yields
exactly the same output sequence as writing the same block at the
original cursor without rewinding. -/
theorem rewind_preserves_windows (st : History) (xs w : List ℚ)
    (h1 : st.mHistoryRequired ≤ st.mHistoryIndex)
    (h2 : st.mHistoryIndex + xs.length ≤ st.mHistory.length) :
    (st.RewindHistory).mHistoryIndex = st.mHistoryRequired ∧
    (∀ i < st.mHistoryRequired,
      (st.RewindHistory).mHistory.getD i 0 =
        st.mHistory.getD (st.mHistoryIndex - st.mHistoryRequired + i) 0) ∧
    irOutputs w ((st.RewindHistory).WriteBlock xs) xs.length =
      irOutputs w (st.WriteBlock xs) xs.length := by
  refine ⟨rfl, ?_, ?_⟩
  · intro i hi
    have hrw := rewindLoop_getD_in st.mHistoryRequired st.mHistory
      (st.mHistoryIndex - st.mHistoryRequired) 0 (by omega) (by omega) i hi
    simp only [Nat.zero_add] at hrw
    simpa [History.RewindHistory] using hrw
  · simp only [irOutputs, History.WriteBlock, History.RewindHistory]
    apply List.map_congr_left
    intro i hi
    rw [List.mem_range] at hi
    congr 1
    apply List.map_congr_left
    intro k hk
    rw [List.mem_range] at hk
    by_cases hik : i + k < st.mHistoryRequired
    · have eL : st.mHistoryRequired - st.mHistoryRequired + i + k = i + k := by omega
      have eR : st.mHistoryIndex - st.mHistoryRequired + i + k
          = (st.mHistoryIndex - st.mHistoryRequired) + (i + k) := by omega
      rw [eL, eR, writeLoop_getD_lt xs _ _ _ _ (by omega),
        writeLoop_getD_lt xs _ _ _ _ (by omega)]
      have hrw := rewindLoop_getD_in st.mHistoryRequired st.mHistory
        (st.mHistoryIndex - st.mHistoryRequired) 0 (by omega) (by omega) (i + k) hik
      simp only [Nat.zero_add] at hrw
      exact hrw
    · have eL : st.mHistoryRequired - st.mHistoryRequired + i + k
          = st.mHistoryRequired + (i + k - st.mHistoryRequired) := by omega
      have eR : st.mHistoryIndex - st.mHistoryRequired + i + k
          = st.mHistoryIndex + (i + k - st.mHistoryRequired) := by omega
      rw [eL, eR,
        writeLoop_getD_in xs _ _ _ _ (by omega)
          (by rw [rewindLoop_length]; omega),
        writeLoop_getD_in xs _ _ _ _ (by omega) (by omega)]

/-- Witness for C3 at a concrete input: `H = 2`, a ten-slot ring with
cursor 5, a two-sample block. -/
theorem rewind_preserves_windows_witness :
    (2 ≤ 5 ∧ 5 + 2 ≤ 10) ∧
    ((History.mk [1, 2, 3, 4, 5, 6, 7, 8, 9, 10] 5 2).RewindHistory.mHistoryIndex = 2 ∧
      (∀ i < 2,
        (History.mk [1, 2, 3, 4, 5, 6, 7, 8, 9, 10] 5 2).RewindHistory.mHistory.getD i 0 =
          (History.mk [1, 2, 3, 4, 5, 6, 7, 8, 9, 10] 5 2).mHistory.getD (5 - 2 + i) 0) ∧
      irOutputs [1, 1, 1]
          ((History.mk [1, 2, 3, 4, 5, 6, 7, 8, 9, 10] 5 2).RewindHistory.WriteBlock [11, 12])
          ([11, 12] : List ℚ).length =
        irOutputs [1, 1, 1]
          ((History.mk [1, 2, 3, 4, 5, 6, 7, 8, 9, 10] 5 2).WriteBlock [11, 12])
          ([11, 12] : List ℚ).length) :=
  ⟨⟨by decide, by decide⟩,
    rewind_preserves_windows (History.mk [1, 2, 3, 4, 5, 6, 7, 8, 9, 10] 5 2)
      [11, 12] [1, 1, 1] (by decide) (by decide)⟩

/-- C8 (counterexample): calling `_UpdateHistory` with zero channels on a
fresh (empty) history does raise the "Zero channels?" fault and writes no
input samples, but the history state is not left exactly as it was:
`_EnsureHistorySize` runs before the channel check and grows, zero-fills
and re-cursors the ring. -/
theorem update_history_zero_channels_mutates :
    (History.UpdateHistory ⟨[], 0, 0⟩ [] 0 1).2 = some "Zero channels?" ∧
    (History.UpdateHistory ⟨[], 0, 0⟩ [] 0 1).1 ≠ ⟨[], 0, 0⟩ := by
  decide

/-- C8 (amended): for every call to `_UpdateHistory` with
`numChannels < 1`, the "Zero channels?" fault is raised and no input
samples are written; the resulting state is exactly
`_EnsureHistorySize(numFrames)` applied to the prior state, so whenever
the ring already has capacity `10 * max(numFrames, historyRequired)` the
state is left exactly as it was. -/
theorem update_history_zero_channels_fault (st : History) (inputs : List (List ℚ))
    (numChannels numFrames : ℕ) (h : numChannels < 1) :
    History.UpdateHistory st inputs numChannels numFrames =
      (st.EnsureHistorySize numFrames, some "Zero channels?") ∧
    (10 * max numFrames st.mHistoryRequired ≤ st.mHistory.length →
      History.UpdateHistory st inputs numChannels numFrames =
        (st, some "Zero channels?")) := by
  have hmain : History.UpdateHistory st inputs numChannels numFrames =
      (st.EnsureHistorySize numFrames, some "Zero channels?") := by
    simp only [History.UpdateHistory]
    rw [if_pos h]
  refine ⟨hmain, fun hcap => ?_⟩
  rw [hmain]
  have : st.EnsureHistorySize numFrames = st := by
    simp only [History.EnsureHistorySize]
    rw [if_neg (by omega)]
  rw [this]

/-- Witness for the amended C8 at a concrete input: a ring that is
already large enough is left exactly unchanged. -/
theorem update_history_zero_channels_fault_witness :
    History.UpdateHistory ⟨List.replicate 10 0, 3, 1⟩ [] 0 0 =
      (⟨List.replicate 10 0, 3, 1⟩, some "Zero channels?") :=
  (update_history_zero_channels_fault ⟨List.replicate 10 0, 3, 1⟩ [] 0 0
    (by decide)).2 (by decide)

namespace noise_gate

/-- The result of `std::clamp(v, lo, hi)` lies in `[lo, hi]` whenever
`lo ≤ hi`. -/
theorem clampQ_mem (v lo hi : ℚ) (h : lo ≤ hi) :
    lo ≤ clampQ v lo hi ∧ clampQ v lo hi ≤ hi := by
  unfold clampQ
  split_ifs with h1 h2
  · exact ⟨le_refl lo, h⟩
  · exact ⟨h, le_refl hi⟩
  · constructor <;> linarith

/-- One step of the trigger state machine keeps the running gain
reduction and the written gain-reduction value inside
`[maxGainReduction, 0]`, given the sign conditions on the per-block slew
bounds. -/
theorem processSample_mem (log10 : ℚ → ℚ) (p : TriggerParams) (alpha dt : ℚ)
    (cs : ChanState) (x : ℚ)
    (hmax : GetMaxGainReduction p ≤ 0)
    (hopen : 0 ≤ -(GetMaxGainReduction p) / p.mOpenTime * dt)
    (hclose : GetMaxGainReduction p / p.mCloseTime * dt ≤ 0)
    (hlo : GetMaxGainReduction p ≤ cs.mLastGainReductionDB)
    (hhi : cs.mLastGainReductionDB ≤ 0) :
    (GetMaxGainReduction p ≤ (processSample log10 p alpha dt cs x).1.mLastGainReductionDB ∧
      (processSample log10 p alpha dt cs x).1.mLastGainReductionDB ≤ 0) ∧
    (GetMaxGainReduction p ≤ (processSample log10 p alpha dt cs x).2 ∧
      (processSample log10 p alpha dt cs x).2 ≤ 0) := by
  simp only [processSample]
  cases cs.mState
  case HOLDING =>
    split_ifs <;> exact ⟨⟨hmax, le_refl 0⟩, ⟨hmax, le_refl 0⟩⟩
  case MOVING =>
    set target := GetGainReduction p (levelToDB log10
      (clampQ (alpha * cs.mLevel + (1 - alpha) * (x * x)) MINIMUM_LOUDNESS_POWER 1000))
      with htarget
    by_cases hgt : target > cs.mLastGainReductionDB
    · rw [if_pos hgt]
      obtain ⟨hd1, hd2⟩ := clampQ_mem ((0.5 : ℚ) * (target - cs.mLastGainReductionDB))
        0 (-(GetMaxGainReduction p) / p.mOpenTime * dt) hopen
      by_cases hz : cs.mLastGainReductionDB +
          clampQ ((0.5 : ℚ) * (target - cs.mLastGainReductionDB))
            0 (-(GetMaxGainReduction p) / p.mOpenTime * dt) ≥ 0
      · rw [if_pos hz]
        exact ⟨⟨hmax, le_refl 0⟩, ⟨hmax, le_refl 0⟩⟩
      · rw [if_neg hz]
        constructor <;> constructor <;> simp only [] <;> linarith
    · rw [if_neg hgt]
      by_cases hlt : target < cs.mLastGainReductionDB
      · rw [if_pos hlt]
        obtain ⟨hd1, hd2⟩ := clampQ_mem ((0.5 : ℚ) * (target - cs.mLastGainReductionDB))
          (GetMaxGainReduction p / p.mCloseTime * dt) 0 hclose
        by_cases hfl : cs.mLastGainReductionDB +
            clampQ ((0.5 : ℚ) * (target - cs.mLastGainReductionDB))
              (GetMaxGainReduction p / p.mCloseTime * dt) 0 < GetMaxGainReduction p
        · rw [if_pos hfl]
          exact ⟨⟨le_refl _, hmax⟩, ⟨le_refl _, hmax⟩⟩
        · rw [if_neg hfl]
          constructor <;> constructor <;> simp only [] <;> linarith
      · rw [if_neg hlt]
        exact ⟨⟨hlo, hhi⟩, ⟨hlo, hhi⟩⟩

/-- In the HOLDING state the value written to the gain-reduction matrix
for that sample is exactly 0 dB. -/
theorem processSample_holding_writes_zero (log10 : ℚ → ℚ) (p : TriggerParams)
    (alpha dt : ℚ) (cs : ChanState) (x : ℚ) (h : cs.mState = State.HOLDING) :
    (processSample log10 p alpha dt cs x).2 = 0 := by
  simp only [processSample, h]
  split_ifs <;> rfl

/-- Folding the trigger step over a block keeps the running gain
reduction in range and produces only in-range gain-reduction values. -/
theorem processChannel_mem (log10 : ℚ → ℚ) (p : TriggerParams) (alpha dt : ℚ)
    (hmax : GetMaxGainReduction p ≤ 0)
    (hopen : 0 ≤ -(GetMaxGainReduction p) / p.mOpenTime * dt)
    (hclose : GetMaxGainReduction p / p.mCloseTime * dt ≤ 0) :
    ∀ (xs : List ℚ) (cs : ChanState),
      GetMaxGainReduction p ≤ cs.mLastGainReductionDB →
      cs.mLastGainReductionDB ≤ 0 →
      (GetMaxGainReduction p ≤
          (processChannel log10 p alpha dt cs xs).1.mLastGainReductionDB ∧
        (processChannel log10 p alpha dt cs xs).1.mLastGainReductionDB ≤ 0) ∧
      ∀ g ∈ (processChannel log10 p alpha dt cs xs).2,
        GetMaxGainReduction p ≤ g ∧ g ≤ 0 := by
  intro xs
  induction xs with
  | nil =>
    intro cs h1 h2
    exact ⟨⟨h1, h2⟩, by simp [processChannel]⟩
  | cons x xs ih =>
    intro cs h1 h2
    have hstep := processSample_mem log10 p alpha dt cs x hmax hopen hclose h1 h2
    have hrec := ih (processSample log10 p alpha dt cs x).1 hstep.1.1 hstep.1.2
    simp only [processChannel]
    refine ⟨hrec.1, ?_⟩
    intro g hg
    rcases List.mem_cons.mp hg with rfl | hg2
    · exact hstep.2
    · exact hrec.2 g hg2

/-- A property holding for every member of a list and for the default
value holds for every `getD` lookup. -/
theorem getD_of_forall_mem (l : List ChanState) (c : ℕ) (P : ChanState → Prop)
    (hP : ∀ cs ∈ l, P cs) (hd : P default) : P (l.getD c default) := by
  by_cases hc : c < l.length
  · rw [List.getD_eq_getElem _ _ hc]
    exact hP _ (List.getElem_mem hc)
  · rw [List.getD_eq_default _ _ (by omega)]
    exact hd

/-- C2: for every Trigger configured with `ratio > 0` and
`threshold > -120 dB`, every gain-reduction value written to the
per-block matrix by `Trigger::Process` lies in
`[-ratio*(threshold - (-120))^2, 0]`, the per-channel running reductions
stay in that interval, and a channel in the HOLDING state gets gain
reduction exactly 0 dB for that sample.

The two extra hypotheses scope the claim to real, defined executions of
the fixed configuration:

* `hinv` is the reachability invariant for a trigger that has carried
  this configuration since construction: `_PrepareBuffers` fills
  `mLastGainReductionDB` with `maxGainReduction` (inside the interval,
  by `hratio`), and the second conclusion below shows every `Process`
  call maintains it.
* `hdOpen`/`hdClose` say the block's two slew clamps run inside
  `std::clamp`'s defined domain.  `std::clamp(v, lo, hi)` has undefined
  behavior when `hi < lo`; the opening step calls it with bounds
  `(0, dOpen)` and the closing step with `(dClose, 0)`, so a C++
  execution that reaches the MOVING branches is defined only when
  `0 ≤ dOpen` and `dClose ≤ 0` (as holds for any positive open/close
  times and sample rate).

The conclusion is universal in `log10` and `cpow`, so it holds in
particular for the real `log10`/`pow`: the interval is enforced by the
clamps and the 0-snap of the state machine alone, whatever the loudness
estimate evaluates to. -/
theorem trigger_gain_reduction_in_interval (log10 : ℚ → ℚ) (cpow : ℚ → ℚ → ℚ)
    (t : Trigger) (inputs : List (List ℚ)) (numChannels numFrames : ℕ)
    (hratio : 0 < t.mParams.mRatio)
    (hthr : MINIMUM_LOUDNESS_DB < t.mParams.mThreshold)
    (hdOpen : 0 ≤ -(GetMaxGainReduction t.mParams) / t.mParams.mOpenTime *
      (1 / t.mSampleRate))
    (hdClose : GetMaxGainReduction t.mParams / t.mParams.mCloseTime *
      (1 / t.mSampleRate) ≤ 0)
    (hinv : ∀ cs ∈ t.mChannels,
      GetMaxGainReduction t.mParams ≤ cs.mLastGainReductionDB ∧
        cs.mLastGainReductionDB ≤ 0) :
    (∀ row ∈ (Trigger.Process log10 cpow t inputs numChannels numFrames).mGainReductionDB,
      ∀ g ∈ row,
        -t.mParams.mRatio * (t.mParams.mThreshold - MINIMUM_LOUDNESS_DB) *
            (t.mParams.mThreshold - MINIMUM_LOUDNESS_DB) ≤ g ∧ g ≤ 0) ∧
    (∀ cs ∈ (Trigger.Process log10 cpow t inputs numChannels numFrames).mChannels,
      GetMaxGainReduction t.mParams ≤ cs.mLastGainReductionDB ∧
        cs.mLastGainReductionDB ≤ 0) ∧
    (∀ (l10 : ℚ → ℚ) (a d : ℚ) (cs : ChanState) (x : ℚ),
      cs.mState = State.HOLDING →
        (processSample l10 t.mParams a d cs x).2 = 0) := by
  have hMG : GetMaxGainReduction t.mParams =
      -t.mParams.mRatio * (t.mParams.mThreshold - MINIMUM_LOUDNESS_DB) *
        (t.mParams.mThreshold - MINIMUM_LOUDNESS_DB) := by
    unfold GetMaxGainReduction GetGainReduction
    rw [if_pos hthr]
    ring
  have hmax : GetMaxGainReduction t.mParams ≤ 0 := by
    rw [hMG]
    nlinarith [mul_self_nonneg (t.mParams.mThreshold - MINIMUM_LOUDNESS_DB)]
  have hprep : ∀ c : ℕ,
      GetMaxGainReduction t.mParams ≤
        ((t.PrepareBuffers numChannels numFrames).mChannels.getD c default).mLastGainReductionDB ∧
      ((t.PrepareBuffers numChannels numFrames).mChannels.getD c default).mLastGainReductionDB ≤ 0 := by
    intro c
    refine getD_of_forall_mem _ c
      (fun cs => GetMaxGainReduction t.mParams ≤ cs.mLastGainReductionDB ∧
        cs.mLastGainReductionDB ≤ 0) ?_ ⟨hmax, le_refl 0⟩
    intro cs hcs
    simp only [Trigger.PrepareBuffers] at hcs
    by_cases hu : numChannels ≠ GetNumChannels t.mOutputs
    · rw [if_pos hu] at hcs
      rw [List.eq_of_mem_replicate hcs]
      exact ⟨le_refl _, hmax⟩
    · rw [if_neg hu] at hcs
      exact hinv cs hcs
  have hchan := processChannel_mem log10 t.mParams
    (cpow (0.5 : ℚ) (1 / (t.mParams.mTime * t.mSampleRate))) (1 / t.mSampleRate)
    hmax hdOpen hdClose
  refine ⟨?_, ?_, ?_⟩
  · intro row hrow g hg
    simp only [Trigger.Process, List.map_map, List.mem_map] at hrow
    obtain ⟨c, _, rfl⟩ := hrow
    rw [← hMG]
    exact (hchan ((inputs.getD c []).take numFrames)
      ((t.PrepareBuffers numChannels numFrames).mChannels.getD c default)
      (hprep c).1 (hprep c).2).2 g (by simpa using hg)
  · intro cs hcs
    simp only [Trigger.Process, List.map_map, List.mem_map] at hcs
    obtain ⟨c, _, rfl⟩ := hcs
    exact (hchan ((inputs.getD c []).take numFrames)
      ((t.PrepareBuffers numChannels numFrames).mChannels.getD c default)
      (hprep c).1 (hprep c).2).1
  · intro l10 a d cs x h
    exact processSample_holding_writes_zero l10 t.mParams a d cs x h

/-- Witness for C2 at a concrete input: integer-valued parameters with
positive times at sample rate 1, one channel, one frame, a freshly
constructed trigger (no channels yet, so the reachability invariant is
vacuous, exactly as at construction). -/
theorem trigger_gain_reduction_in_interval_witness :
    (∀ row ∈ (Trigger.Process (fun _ => 0) (fun _ _ => 0)
        (Trigger.mk ⟨1, -60, 2, 1, 1, 1⟩ 1 [] [] [])
        [[0]] 1 1).mGainReductionDB,
      ∀ g ∈ row,
        -(Trigger.mk ⟨1, -60, 2, 1, 1, 1⟩ 1 [] [] []).mParams.mRatio *
            ((Trigger.mk ⟨1, -60, 2, 1, 1, 1⟩ 1 [] [] []).mParams.mThreshold -
              MINIMUM_LOUDNESS_DB) *
            ((Trigger.mk ⟨1, -60, 2, 1, 1, 1⟩ 1 [] [] []).mParams.mThreshold -
              MINIMUM_LOUDNESS_DB) ≤ g ∧ g ≤ 0) ∧
    (∀ cs ∈ (Trigger.Process (fun _ => 0) (fun _ _ => 0)
        (Trigger.mk ⟨1, -60, 2, 1, 1, 1⟩ 1 [] [] [])
        [[0]] 1 1).mChannels,
      GetMaxGainReduction (Trigger.mk ⟨1, -60, 2, 1, 1, 1⟩ 1 [] [] []).mParams ≤
          cs.mLastGainReductionDB ∧ cs.mLastGainReductionDB ≤ 0) ∧
    (∀ (l10 : ℚ → ℚ) (a d : ℚ) (cs : ChanState) (x : ℚ),
      cs.mState = State.HOLDING →
        (processSample l10
          (Trigger.mk ⟨1, -60, 2, 1, 1, 1⟩ 1 [] [] []).mParams a d cs x).2 = 0) :=
  trigger_gain_reduction_in_interval (fun _ => 0) (fun _ _ => 0)
    (Trigger.mk ⟨1, -60, 2, 1, 1, 1⟩ 1 [] [] []) [[0]] 1 1
    (by decide) (by decide)
    (by norm_num [GetMaxGainReduction, GetGainReduction, MINIMUM_LOUDNESS_DB])
    (by norm_num [GetMaxGainReduction, GetGainReduction, MINIMUM_LOUDNESS_DB])
    (by simp)

/-- Rebuilding a list of rows of uniform length `nF` by indexed lookup
and `take nF` is the identity. -/
theorem map_range_take (l : List (List ℚ)) (nF : ℕ) (h : ∀ r ∈ l, r.length = nF) :
    (List.range l.length).map (fun c => (l.getD c []).take nF) = l := by
  induction l with
  | nil => rfl
  | cons r l ih =>
    have hr : r.take nF = r := by
      rw [← h r (by simp)]
      exact List.take_length r
    simp only [List.length_cons, List.range_succ_eq_map, List.map_cons,
      List.getD_cons_zero, List.map_map]
    refine congrArg₂ List.cons hr ?_
    have hl := ih fun s hs => h s (by simp [hs])
    calc (List.range l.length).map
          ((fun c => ((r :: l).getD c []).take nF) ∘ (· + 1))
        = (List.range l.length).map (fun c => (l.getD c []).take nF) := by
          apply List.map_congr_left
          intro a _
          simp [Function.comp, List.getD_cons_succ]
      _ = l := hl

/-- C5: the Trigger passes its input block through unchanged: for every
call with `numChannels` input channels of `numFrames` frames each, the
output block equals the input block sample for sample. -/
theorem trigger_process_passthrough (log10 : ℚ → ℚ) (cpow : ℚ → ℚ → ℚ)
    (t : Trigger) (inputs : List (List ℚ)) (numChannels numFrames : ℕ)
    (hlen : inputs.length = numChannels)
    (hrows : ∀ r ∈ inputs, r.length = numFrames) :
    (Trigger.Process log10 cpow t inputs numChannels numFrames).mOutputs = inputs := by
  simp only [Trigger.Process]
  rw [← hlen]
  exact map_range_take inputs numFrames hrows

/-- Witness for C5 at a concrete input: two channels, two frames. -/
theorem trigger_process_passthrough_witness :
    (Trigger.Process (fun _ => 0) (fun _ _ => 0) Trigger.ctor
      [[1, 2], [3, 4]] 2 2).mOutputs = [[1, 2], [3, 4]] :=
  trigger_process_passthrough (fun _ => 0) (fun _ _ => 0) Trigger.ctor
    [[1, 2], [3, 4]] 2 2 (by decide) (by decide)

/-- C9: at the end of a `Trigger::Process` call, every subscribed Gain
unit's stored gain-reduction matrix equals the trigger's matrix at that
moment; the publish stores the matrix value itself
(`SetGainReductionDB` is a `std::vector` copy assignment, i.e. value
semantics, so the stored copy is independent); and however the trigger
evolves afterwards (any later trigger state `t2`), each published Gain
still holds the matrix published at this call. -/
theorem trigger_publish_copies (log10 : ℚ → ℚ) (cpow : ℚ → ℚ → ℚ)
    (t : Trigger) (gains : List Gain) (inputs : List (List ℚ))
    (numChannels numFrames : ℕ) :
    (∀ g ∈ (Trigger.ProcessPublish log10 cpow t gains inputs numChannels numFrames).2,
      g.mGainReductionDB =
        (Trigger.ProcessPublish log10 cpow t gains inputs numChannels numFrames).1.mGainReductionDB) ∧
    (∀ (g : Gain) (m : List (List ℚ)), (g.SetGainReductionDB m).mGainReductionDB = m) ∧
    (∀ (t2 : Trigger),
      ∀ g ∈ (Trigger.ProcessPublish log10 cpow t gains inputs numChannels numFrames).2,
        ((t2, g) : Trigger × Gain).2.mGainReductionDB =
          (Trigger.ProcessPublish log10 cpow t gains inputs numChannels numFrames).1.mGainReductionDB) := by
  refine ⟨?_, fun g m => rfl, ?_⟩
  · intro g hg
    simp only [Trigger.ProcessPublish, List.mem_map] at hg
    obtain ⟨g0, _, rfl⟩ := hg
    rfl
  · intro t2 g hg
    simp only [Trigger.ProcessPublish, List.mem_map] at hg
    obtain ⟨g0, _, rfl⟩ := hg
    rfl

end noise_gate

namespace recursive_linear_filter

/-- The NaN guard makes every guarded value numeric. -/
theorem guard_isSome (a : FD) : (if fdIsNaN a then some 0 else a).isSome = true := by
  rcases a with _ | v <;> simp [fdIsNaN]

/-- The output sample of one filter step is never NaN. -/
theorem filterStep_out_isSome (ic oc : List FD) (idg odg : ℕ)
    (ih oh : List FD) (iS oS : ℕ) (x : FD) :
    (filterStep ic oc idg odg ih oh iS oS x).2.2.2.2.isSome = true := by
  simp only [filterStep]
  exact guard_isSome _

/-- When the accumulated recurrence result is NaN, the emitted (and
stored) sample is 0. -/
theorem filterStep_nan_replaced (ic oc : List FD) (idg odg : ℕ)
    (ih oh : List FD) (iS oS : ℕ) (x : FD)
    (h : fdIsNaN (filterAccum ic oc (ih.set (natDecWrap iS idg) x) oh
      (natDecWrap iS idg) (natDecWrap oS odg) idg odg) = true) :
    (filterStep ic oc idg odg ih oh iS oS x).2.2.2.2 = some 0 := by
  simp only [filterStep, h, if_true]

/-- One filter step keeps the output history free of NaN. -/
theorem filterStep_outHist_isSome (ic oc : List FD) (idg odg : ℕ)
    (ih oh : List FD) (iS oS : ℕ) (x : FD)
    (hoh : ∀ v ∈ oh, v.isSome = true) :
    ∀ v ∈ (filterStep ic oc idg odg ih oh iS oS x).2.1, v.isSome = true := by
  intro v hv
  simp only [filterStep] at hv
  by_cases hdeg : 1 ≤ odg
  · rw [if_pos hdeg] at hv
    rcases List.mem_or_eq_of_mem_set hv with h1 | h2
    · exact hoh v h1
    · rw [h2]
      exact guard_isSome _
  · rw [if_neg hdeg] at hv
    exact hoh v hv

/-- The frame loop emits only numeric samples and keeps the output
history free of NaN. -/
theorem filterChan_no_nan (ic oc : List FD) (idg odg : ℕ) :
    ∀ (xs ih oh : List FD) (iS oS : ℕ),
      (∀ v ∈ oh, v.isSome = true) →
      (∀ y ∈ (filterChan ic oc idg odg ih oh iS oS xs).2.2.2.2, y.isSome = true) ∧
      (∀ v ∈ (filterChan ic oc idg odg ih oh iS oS xs).2.1, v.isSome = true) := by
  intro xs
  induction xs with
  | nil =>
    intro ih oh iS oS hoh
    exact ⟨by simp [filterChan], by simpa [filterChan] using hoh⟩
  | cons x xs ih2 =>
    intro ih oh iS oS hoh
    have hstep := filterStep_outHist_isSome ic oc idg odg ih oh iS oS x hoh
    have hout := filterStep_out_isSome ic oc idg odg ih oh iS oS x
    have hrec := ih2 (filterStep ic oc idg odg ih oh iS oS x).1
      (filterStep ic oc idg odg ih oh iS oS x).2.1
      (filterStep ic oc idg odg ih oh iS oS x).2.2.1
      (filterStep ic oc idg odg ih oh iS oS x).2.2.2.1 hstep
    simp only [filterChan]
    constructor
    · intro y hy
      rcases List.mem_cons.mp hy with rfl | hy2
      · exact hout
      · exact hrec.1 y hy2
    · exact hrec.2

/-- All-numeric rows survive `getD` lookups. -/
theorem rows_all_isSome (l : List (List FD)) (c : ℕ)
    (h : ∀ row ∈ l, ∀ v ∈ row, v.isSome = true) :
    ∀ v ∈ l.getD c [], v.isSome = true := by
  by_cases hc : c < l.length
  · rw [List.getD_eq_getElem _ _ hc]
    exact h _ (List.getElem_mem hc)
  · rw [List.getD_eq_default _ _ (by omega)]
    simp

/-- `_PrepareBuffers` keeps the output history free of NaN. -/
theorem prepare_outHist_isSome (b : Base) (numChannels numFrames : ℕ)
    (hinit : ∀ row ∈ b.mOutputHistory, ∀ v ∈ row, v.isSome = true) :
    ∀ row ∈ (b.PrepareBuffers numChannels numFrames).mOutputHistory,
      ∀ v ∈ row, v.isSome = true := by
  intro row hrow
  simp only [Base.PrepareBuffers] at hrow
  by_cases hnew : GetNumChannels b.mOutputs ≠ numChannels
  · rw [if_pos hnew] at hrow
    simp only at hrow
    intro v hv
    rw [List.eq_of_mem_replicate hrow] at hv
    rw [List.eq_of_mem_replicate hv]
    simp
  · rw [if_neg hnew] at hrow
    exact hinit row hrow

/-- C7: for every call to the recursive linear filter's `Process`, every
sample written to the output block and to the per-channel output history
is not NaN (given the output history was NaN-free, as it is from
construction and after every call); whenever the accumulated recurrence
result is NaN it is replaced by 0 before being stored; and subsequent
samples are computed by the same recurrence from that zeroed history
entry. -/
theorem filter_process_no_nan (b : Base) (inputs : List (List FD))
    (numChannels numFrames : ℕ)
    (hinit : ∀ row ∈ b.mOutputHistory, ∀ v ∈ row, v.isSome = true) :
    (∀ row ∈ (Base.Process b inputs numChannels numFrames).2,
      ∀ y ∈ row, y.isSome = true) ∧
    (∀ row ∈ (Base.Process b inputs numChannels numFrames).1.mOutputHistory,
      ∀ v ∈ row, v.isSome = true) ∧
    (∀ (ic oc ih oh : List FD) (idg odg iS oS : ℕ) (x : FD),
      fdIsNaN (filterAccum ic oc (ih.set (natDecWrap iS idg) x) oh
        (natDecWrap iS idg) (natDecWrap oS odg) idg odg) = true →
      (filterStep ic oc idg odg ih oh iS oS x).2.2.2.2 = some 0) := by
  have hprep := prepare_outHist_isSome b numChannels numFrames hinit
  refine ⟨?_, ?_, ?_⟩
  · intro row hrow
    simp only [Base.Process, List.map_map, List.mem_map] at hrow
    obtain ⟨c, _, rfl⟩ := hrow
    exact (filterChan_no_nan _ _ _ _ _ _ _ _ _
      (rows_all_isSome _ c hprep)).1
  · intro row hrow
    simp only [Base.Process, List.map_map, List.mem_map] at hrow
    obtain ⟨c, _, rfl⟩ := hrow
    exact (filterChan_no_nan _ _ _ _ _ _ _ _ _
      (rows_all_isSome _ c hprep)).2
  · intro ic oc ih oh idg odg iS oS x h
    exact filterStep_nan_replaced ic oc idg odg ih oh iS oS x h

/-- Witness for C7 at a concrete input: a filter whose single input
coefficient is NaN, fed a numeric sample. -/
theorem filter_process_no_nan_witness :
    (∀ row ∈ (Base.Process (Base.mk [none] [some 0, some 0] [] [] 1 2 [])
        [[some 1]] 1 1).2, ∀ y ∈ row, y.isSome = true) ∧
    (∀ row ∈ (Base.Process (Base.mk [none] [some 0, some 0] [] [] 1 2 [])
        [[some 1]] 1 1).1.mOutputHistory, ∀ v ∈ row, v.isSome = true) ∧
    (∀ (ic oc ih oh : List FD) (idg odg iS oS : ℕ) (x : FD),
      fdIsNaN (filterAccum ic oc (ih.set (natDecWrap iS idg) x) oh
        (natDecWrap iS idg) (natDecWrap oS odg) idg odg) = true →
      (filterStep ic oc idg odg ih oh iS oS x).2.2.2.2 = some 0) :=
  filter_process_no_nan (Base.mk [none] [some 0, some 0] [] [] 1 2 [])
    [[some 1]] 1 1 (by simp)

end recursive_linear_filter

/-- C6: for every successfully loaded impulse response, the weight
vector built by `_SetWeights` has length `L = min(resampled length,
8192)`, its entry at index `L-1-i` is the gain factor
`10^(-18*0.05) * 48000 / sampleRate` times the `i`-th resampled sample
(time-reversed and gain-scaled), `historyRequired` is set to `L - 1`,
and `Process` never modifies the weight vector. -/
theorem ir_set_weights_spec (cpow : ℚ → ℚ → ℚ) (resampled : List ℚ)
    (sampleRate : ℚ) (hne : 0 < resampled.length) :
    (SetWeights cpow resampled sampleRate).1.length = min resampled.length 8192 ∧
    (∀ i < min resampled.length 8192,
      (SetWeights cpow resampled sampleRate).1.getD
          (min resampled.length 8192 - 1 - i) 0 =
        irGain cpow sampleRate * resampled.getD i 0) ∧
    (SetWeights cpow resampled sampleRate).2 = min resampled.length 8192 - 1 ∧
    (∀ (ir : ImpulseResponse) (inputs : List (List ℚ)) (nC nF : ℕ),
      (ImpulseResponse.Process ir inputs nC nF).1.mWeight = ir.mWeight) := by
  refine ⟨by simp [SetWeights, mMaxLength], ?_, by simp [SetWeights, mMaxLength], ?_⟩
  · intro i hi
    have hL : 0 < min resampled.length 8192 := by
      simp only [lt_min_iff]
      omega
    have hidx : min resampled.length 8192 - 1 - i < min resampled.length 8192 := by
      omega
    simp only [SetWeights, mMaxLength]
    rw [List.getD_eq_getElem _ _ (by simpa using hidx), List.getElem_map,
      List.getElem_range]
    have : min resampled.length 8192 - 1 -
        (min resampled.length 8192 - 1 - i) = i := by omega
    rw [this]
  · intro ir inputs nC nF
    simp only [ImpulseResponse.Process]
    rcases h : (ir.toHistory.UpdateHistory inputs nC nF).2 with _ | e <;> simp [h]

/-- Witness for C6 at a concrete input: a two-sample resampled impulse. -/
theorem ir_set_weights_spec_witness :
    (SetWeights (fun _ _ => 1) [5, 7] 3).1.length = min 2 8192 ∧
    (∀ i < min 2 8192,
      (SetWeights (fun _ _ => 1) [5, 7] 3).1.getD (min 2 8192 - 1 - i) 0 =
        irGain (fun _ _ => 1) 3 * ([5, 7] : List ℚ).getD i 0) ∧
    (SetWeights (fun _ _ => 1) [5, 7] 3).2 = min 2 8192 - 1 ∧
    (∀ (ir : ImpulseResponse) (inputs : List (List ℚ)) (nC nF : ℕ),
      (ImpulseResponse.Process ir inputs nC nF).1.mWeight = ir.mWeight) := by
  have h := ir_set_weights_spec (fun _ _ => 1) [5, 7] 3 (by decide)
  simpa using h

end NamCore
